import Mathlib

/-!
Shallow embedding of the partition-coordination algorithms of `dask_cudf`
(`src/dask_cudf/core.py` and `src/dask_cudf/io/csv.py`), together with
theorems settling the specification claims about them.

Partitions are modelled by the data the algorithms actually consult:
key-set summaries are `Finset ℕ`, partition row contents are `List ℕ`
(the index / sort-key values of the rows), divisions are
`List (Option ℕ)` (`none` is Python's `None`), and fallible Python
code is embedded into `Option` / `Except`.
-/

namespace DaskCudf

/-! ### `DataFrame._align_divisions` (core.py lines 343-365)

The adjacent-intersection repair loop.  Python state is a mutable list
`uniques` of sets.  For one adjacent pair the source does:

    intersect = uniques[i] & uniques[i + 1]
    if intersect:
        smaller = min(uniques[i], uniques[i + 1], key=len)
        bigger = max(uniques[i], uniques[i + 1], key=len)
        smaller |= intersect
        bigger -= intersect
        changed = True

Python's `min`/`max` with `key=len` both return the FIRST argument on a
length tie, so on a tie `smaller` and `bigger` alias `uniques[i]` and the
two mutations compose on it while `uniques[i+1]` is untouched. -/

def repairStep (a b : Finset ℕ) : Finset ℕ × Finset ℕ × Bool :=
  let inter := a ∩ b
  if inter = ∅ then (a, b, false)
  else if a.card < b.card then (a ∪ inter, b \ inter, true)
  else if b.card < a.card then (a \ inter, b ∪ inter, true)
  else ((a ∪ inter) \ inter, b, true)

/-- One full in-order scan `for i in range(len(uniques))[:-1]` of the repair
loop; the `Bool` is the `changed` flag accumulated over the scan.  The scan
mutates in place, so the recursive call continues from the already-updated
second component. -/
def scanPass : List (Finset ℕ) → List (Finset ℕ) × Bool
  | [] => ([], false)
  | [a] => ([a], false)
  | a :: b :: rest =>
    let s := repairStep a b
    let r := scanPass (s.2.1 :: rest)
    (s.1 :: r.1, s.2.2 || r.2)
termination_by l => l.length

/-- Total number of keys over all key-set summaries; the termination
measure of the `while changed` loop. -/
def totalCard (l : List (Finset ℕ)) : ℕ := (l.map Finset.card).sum

/-- The `while changed:` loop of `_align_divisions`, with explicit fuel
counting full scans; `none` means the fuel ran out before the fixed point
was reached. -/
def alignLoop : ℕ → List (Finset ℕ) → Option (List (Finset ℕ))
  | 0, _ => none
  | fuel + 1, l =>
    match scanPass l with
    | (l', true) => alignLoop fuel l'
    | (l', false) => some l'

/-! ### `reduction` (core.py lines 802-937)

The generic tree reduction.  The dask graph is embedded as a list of
keyed nodes; a key is `(name, depth, i)` in the source, where the name
distinguishes the chunk name, the combine name and the aggregate name.
`levelKey d i` is `(a, depth, i)` with `a` the chunk name at depth 0 and
the combine name at positive depths. -/

inductive RKey where
  | input (i : ℕ)
  | chunk (i : ℕ)
  | comb (depth : ℕ) (i : ℕ)
  | agg
deriving DecidableEq, Repr

structure RNode where
  key : RKey
  deps : List RKey
deriving DecidableEq, Repr

def levelKey (d i : ℕ) : RKey := if d = 0 then .chunk i else .comb d i

/-- `toolz.partition_all(se, l)`: consecutive chunks of size `se`, the last
possibly shorter.  Structural fuel recursion (`fuel = l.length` suffices);
`partition_all` is only ever invoked with `se ≥ 2` in the source. -/
def chunksOfF : ℕ → ℕ → List ℕ → List (List ℕ)
  | 0, _, _ => []
  | _ + 1, _, [] => []
  | fuel + 1, se, x :: l => ((x :: l).take se) :: chunksOfF fuel se ((x :: l).drop se)

def chunksOf (se : ℕ) (l : List ℕ) : List (List ℕ) := chunksOfF l.length se l

/-- The per-partition chunk tasks `(a, 0, i)`, one per input partition. -/
def chunkNodes (np : ℕ) : List RNode :=
  (List.range np).map (fun i => ⟨.chunk i, [.input i]⟩)

/-- The `while k > split_every` combine loop: each iteration groups the `k`
outstanding results `range k` into buckets via `partition_all`, makes one
combine node per bucket at the next depth, and continues with
`k = part_i + 1` (the number of buckets).  Fuel counts loop iterations;
`fuel = k` suffices whenever `se ≥ 2`.  Returns the combine nodes, the
final `k` and the final depth. -/
def combineNodes (se : ℕ) : ℕ → ℕ → ℕ → List RNode × ℕ × ℕ
  | 0, k, d => ([], k, d)
  | fuel + 1, k, d =>
    if se < k then
      let buckets := chunksOf se (List.range k)
      let lvl := buckets.enum.map
        (fun pi => ⟨.comb (d + 1) pi.1, pi.2.map (levelKey d)⟩)
      let r := combineNodes se fuel buckets.length (d + 1)
      (lvl ++ r.1, r.2)
    else ([], k, d)

/-- The single aggregate task `(b, 0)` consuming the `k` remaining results
of the last level. -/
def aggNode (k d : ℕ) : RNode := ⟨.agg, (List.range k).map (levelKey d)⟩

/-- The full task graph built by `reduction` for one frame argument with
`np` partitions, after `split_every` has been resolved to the fan-in `se`. -/
def reductionGraph (se np : ℕ) : List RNode :=
  let c := combineNodes se np np 0
  chunkNodes np ++ c.1 ++ [aggNode c.2.1 c.2.2]

/-- The Python values that can be passed for `split_every`: `None`,
`False`, `True`, an `int`, or a non-integer number (a float, kept as `ℚ`). -/
inductive PySplitEvery where
  | none
  | pyFalse
  | pyTrue
  | int (n : ℤ)
  | float (q : ℚ)
deriving DecidableEq, Repr

/-- core.py lines 872-877:

    if split_every is None: split_every = 8
    elif split_every is False: split_every = npartitions
    elif split_every < 2 or not isinstance(split_every, int):
        raise ValueError("split_every must be an integer >= 2")

`True` compares as the integer 1, hence `1 < 2` raises; a float raises
either because it is `< 2` or because it fails the `isinstance` check. -/
def resolveSplitEvery (np : ℕ) : PySplitEvery → Except String ℕ
  | .none => .ok 8
  | .pyFalse => .ok np
  | .pyTrue => .error "split_every must be an integer >= 2"
  | .int n => if n < 2 then .error "split_every must be an integer >= 2" else .ok n.toNat
  | .float _ => .error "split_every must be an integer >= 2"

structure RTable where
  nodes : List RNode
  divisions : List (Option ℕ)
deriving DecidableEq, Repr

/-- `npartitions` of a dask collection: one fewer than its divisions. -/
def RTable.npartitions (t : RTable) : ℕ := t.divisions.length - 1

/-- `reduction` over one frame argument with `np` partitions: validate
`split_every` (raising before any graph node is built), construct the
chunk / combine / aggregate graph, and return it as a new object with
divisions `(None, None)` (core.py line 937). -/
def reduction (se : PySplitEvery) (np : ℕ) : Except String RTable :=
  match resolveSplitEvery np se with
  | .error e => .error e
  | .ok k => .ok ⟨reductionGraph k np, [Option.none, Option.none]⟩

def RKey.isChunk : RKey → Bool
  | .chunk _ => true
  | _ => false

def RKey.isComb : RKey → Bool
  | .comb _ _ => true
  | _ => false

def RKey.isAgg : RKey → Bool
  | .agg => true
  | _ => false

/-! ### `DataFrame.join` selectors and `fix_column` (core.py lines 264-341)

`leftuniques` / `rightuniques` are the per-partition key-set summaries of
the aligned sides.  The selectors pair partition indices using a
monotonically advancing `pivot` into the right sequence. -/

/-- The inner `for j in range(pivot, len(rightparts))` search: the first
`j ≥ pivot` whose key-set intersects `u`, scanning `ru` from `pivot`. -/
def findFromAux (u : Finset ℕ) : List (Finset ℕ) → ℕ → Option ℕ
  | [], _ => Option.none
  | v :: rest, j => if u ∩ v ≠ ∅ then some j else findFromAux u rest (j + 1)

def findFrom (u : Finset ℕ) (ru : List (Finset ℕ)) (pivot : ℕ) : Option ℕ :=
  findFromAux u (ru.drop pivot) pivot

/-- `left_selector` (core.py lines 300-309): one yield per left partition
`i`, either `(i, some j)` for the first intersecting right partition
`j ≥ pivot` (then `pivot = j + 1`), or `(i, none)` via the `for ... else`
arm when no right partition from `pivot` on intersects. -/
def leftSel (ru : List (Finset ℕ)) : List (Finset ℕ) → ℕ → ℕ → List (ℕ × Option ℕ)
  | [], _, _ => []
  | u :: lus, i, pivot =>
    match findFrom u ru pivot with
    | some j => (i, some j) :: leftSel ru lus (i + 1) (j + 1)
    | Option.none => (i, Option.none) :: leftSel ru lus (i + 1) pivot

def left_selector (lu ru : List (Finset ℕ)) : List (ℕ × Option ℕ) :=
  leftSel ru lu 0 0

/-- `inner_selector` (core.py lines 291-298): identical walk, but an
unmatched left partition yields nothing. -/
def innerSel (ru : List (Finset ℕ)) : List (Finset ℕ) → ℕ → ℕ → List (ℕ × ℕ)
  | [], _, _ => []
  | u :: lus, i, pivot =>
    match findFrom u ru pivot with
    | some j => (i, j) :: innerSel ru lus (i + 1) (j + 1)
    | Option.none => innerSel ru lus (i + 1) pivot

def inner_selector (lu ru : List (Finset ℕ)) : List (ℕ × ℕ) :=
  innerSel ru lu 0 0

/-- A materialized partition frame: named columns, each a list of
optional cell values (`none` is a null). -/
structure PartFrame where
  cols : List (String × List (Option ℕ))
deriving DecidableEq, Repr

/-- `len(df)`: the row count (length of any column). -/
def PartFrame.nrows (f : PartFrame) : ℕ :=
  match f.cols with
  | [] => 0
  | c :: _ => c.2.length

/-- `fix_column` (core.py lines 315-333): the output for an unmatched
left partition in a left join.  Left columns keep their values under
`k + lsuffix`; every right-schema column `k` becomes an all-null column
`k + rsuffix` of length `len(lhs)` (a masked series with
`null_count = data.size`). -/
def fix_column (lsuffix rsuffix : String) (rhsCols : List String) (lhs : PartFrame) :
    PartFrame :=
  ⟨lhs.cols.map (fun kc => (kc.1 ++ lsuffix, kc.2)) ++
    rhsCols.map (fun k => (k ++ rsuffix, List.replicate lhs.nrows Option.none))⟩

/-! ### `DataFrame._compute_divisions` (core.py lines 431-446)

For a table with unknown divisions: `first_index` of every partition plus
`last_index` of the last one.  A partition is its list of index values;
`df.index[0]` / `df.index[-1]` on an empty partition raise, which the
embedding propagates as `none` (any failing boundary makes the whole
`compute(*divs)` fail). -/

def first_index (df : List ℕ) : Option ℕ := df.head?

def last_index (df : List ℕ) : Option ℕ := df.getLast?

/-- Sequence a list of optional boundaries: `none` anywhere (a raised
`IndexError` in one of the delayed boundary tasks) fails the whole
computation. -/
def seqOptions : List (Option ℕ) → Option (List ℕ)
  | [] => some []
  | Option.none :: _ => Option.none
  | some x :: rest => (seqOptions rest).map (x :: ·)

def compute_divisions (parts : List (List ℕ)) : Option (List ℕ) :=
  match parts.getLast? with
  | Option.none => Option.none
  | some lastPart => seqOptions (parts.map first_index ++ [last_index lastPart])

/-! ### `DataFrame._align_to_indices` re-bucketing tail (core.py lines 378-429)

`min(set)` / `max(set)` over a Python set are embedded via `Option`
(`none` for the `ValueError` raised on an empty set), and the whole tail
into `Option` so that every raise of the source aborts the call. -/

def pyMinF (s : Finset ℕ) : Option ℕ :=
  if h : s.Nonempty then some (s.min' h) else Option.none

def pyMaxF (s : Finset ℕ) : Option ℕ :=
  if h : s.Nonempty then some (s.max' h) else Option.none

/-- Lines 393-397: index values of the last original partition that are
missing from the last bucket and exceeding its maximum become an extra
trailing bucket.  `originals[-1]` / `uniques[-1]` raise `IndexError` on
an empty list (`none`); `max(uniques[-1])` inside the set comprehension
is only reached when the comprehension iterates over a nonempty
`extras`, and raises if the last bucket is empty. -/
def extrasStep (originals uniques : List (Finset ℕ)) : Option (List (Finset ℕ)) :=
  match originals.getLast?, uniques.getLast? with
  | some ol, some ul =>
    if ol \ ul = ∅ then some uniques
    else
      match pyMaxF ul with
      | Option.none => Option.none
      | some m =>
        let extras := (ol \ ul).filter (fun x => m < x)
        some (if extras = ∅ then uniques else uniques ++ [extras])
  | _, _ => Option.none

/-- One `OrderedDict` key insertion (core.py line 401): assigning
`remap[tuple(sorted(idxset))]` inserts a new key at the end, while an
already-present key keeps its position (only its value is overwritten —
and equal key-sets produce equal bins). -/
def insertKey (acc : List (Finset ℕ)) (s : Finset ℕ) : List (Finset ℕ) :=
  if s ∈ acc then acc else acc ++ [s]

/-- The keys of the `remap` ordered dict (core.py lines 399-404): one per
DISTINCT key-set bucket, in first-occurrence order — duplicate buckets in
`uniques` collapse onto one entry, hence one new partition
(`tuple(sorted(idxset))` is injective on the sets). -/
def remapKeys (uniques : List (Finset ℕ)) : List (Finset ℕ) :=
  uniques.foldl insertKey []

structure AlignedTable where
  divisions : List (Option ℕ)
deriving DecidableEq, Repr

/-- Lines 393-429.  After the extras step, `remap` gets one entry per
distinct bucket and `newparts` one new partition per entry.  The local
variable

    divisions = list(map(min, uniques)); divisions.append(max(uniques[-1]))

is computed (over the full `uniques` list, duplicates included; a `min`
or `max` on an empty bucket raises, aborting the call) and returned here
as the second component, but the table is built by
`from_delayed(newparts, meta=self._meta)` with NO divisions argument,
and `dask.dataframe.from_delayed` leaves divisions unknown (all `None`,
one more than the number of partitions) when none are passed.  The first
component is the returned table's divisions. -/
def align_to_indices_tail (originals uniques0 : List (Finset ℕ)) :
    Option (AlignedTable × List ℕ) :=
  match extrasStep originals uniques0 with
  | Option.none => Option.none
  | some uniques =>
    match seqOptions (uniques.map pyMinF ++ [uniques.getLast?.bind pyMaxF]) with
    | Option.none => Option.none
    | some divisions =>
      some (⟨List.replicate ((remapKeys uniques).length + 1) Option.none⟩, divisions)

/-! ### `DataFrame.sort_values_binned` (core.py lines 543-592)

Partitions are modelled by the list of their rows' sort-key values; the
network sort producing them is `batcher_sortnet.sort_delayed_frame`,
which is outside `src/` and is modelled from the spec as hypotheses on
the post-sort partitions (see the claim theorem).  `uniques` is the list
of per-partition distinct key sets; the `joiner` pass walks, for each
`i`, the following partitions `j = i+1, i+2, ...` while the (current)
key sets intersect, removing the intersection from `uniques[j]` and
recording it as a forward join instruction, and breaks at the first
non-intersecting one. -/

/-- The inner `for j in range(i + 1, len(uniques))` loop for one head set
`u`: returns the recorded intersections (for consecutive following
partitions) and the updated following key sets. -/
def innerJoin (u : Finset ℕ) : List (Finset ℕ) → List (Finset ℕ) × List (Finset ℕ)
  | [] => ([], [])
  | v :: rest =>
    let inter := u ∩ v
    if inter = ∅ then ([], v :: rest)
    else
      let r := innerJoin u rest
      (inter :: r.1, (v \ inter) :: r.2)

/-- The full `joiner` pass: one entry per partition, holding its final
key set and its forward join instructions.  Fuel-structural; the updated
tail has the same length, so `fuel = l.length` suffices. -/
def binPassF : ℕ → List (Finset ℕ) → List (Finset ℕ × List (Finset ℕ))
  | 0, _ => []
  | _ + 1, [] => []
  | fuel + 1, u :: rest =>
    let r := innerJoin u rest
    (u, r.1) :: binPassF fuel r.2

def binPass (l : List (Finset ℕ)) : List (Finset ℕ × List (Finset ℕ)) :=
  binPassF l.length l

/-- The rows pulled into a partition by its `join` instructions: the
`r`-th instruction selects from the `r`-th following (original, not yet
rewritten) partition the rows whose key lies in the recorded
intersection. -/
def joinPull : List (List ℕ) → List (Finset ℕ) → List ℕ
  | _, [] => []
  | [], _ :: _ => []
  | p :: ps, r :: rs => p.filter (fun x => x ∈ r) ++ joinPull ps rs

/-- Lines 585-592: partition `i` survives iff its final key set is
nonempty; a surviving partition is `drop`ped to the rows whose key is in
its final key set, then extended by its `join` pulls; emptied partitions
are omitted from the results. -/
def binnedOutputs : List (List ℕ) → List (Finset ℕ × List (Finset ℕ)) → List (List ℕ)
  | _, [] => []
  | [], _ :: _ => []
  | p :: ps, e :: rest =>
    if e.1 = ∅ then binnedOutputs ps rest
    else (p.filter (fun x => x ∈ e.1) ++ joinPull ps e.2) :: binnedOutputs ps rest

/-- `sort_values_binned` applied to the post-sort partitions. -/
def sort_values_binned (parts : List (List ℕ)) : List (List ℕ) :=
  binnedOutputs parts (binPass (parts.map List.toFinset))

/-- Contiguity of key occurrences: a key present in the sets at positions
`a` and `c` is present at every position in between.  This is the
invariant the joiner pass relies on; it holds for the key sets of the
output of the network sort. -/
def Consec (l : List (Finset ℕ)) : Prop :=
  ∀ (a b c : ℕ) (sa sb sc : Finset ℕ), a ≤ b → b ≤ c →
    l.get? a = some sa → l.get? b = some sb → l.get? c = some sc →
    ∀ x, x ∈ sa → x ∈ sc → x ∈ sb

/-- Modelled from the spec: the partitions produced by the network sort
(`batcher_sortnet.sort_delayed_frame`, repository code not under `src/`).
Per the spec's sort-totality property — "after network sort, for every
pair of partitions `i < j`, `max(partition_i) <= min(partition_j)`" —
every row value of an earlier partition is at most every row value of a
later one, and each partition is nonempty (its `max`/`min` exist). -/
def SortedParts (parts : List (List ℕ)) : Prop :=
  (∀ p ∈ parts, p ≠ []) ∧
    List.Pairwise (fun p q => ∀ x ∈ p, ∀ y ∈ q, x ≤ y) parts

/-! ### `read_csv` (io/csv.py lines 11-38)

Files are modelled by their byte size and the column names in their
header.  `meta = cudf.read_csv(filenames[0], **kwargs)` is the backend
reading the FIRST file and discovering its header columns; later chunks
of EVERY file are read with `names = meta.columns` and `header = None`. -/

structure CsvFile where
  size : ℕ
  header : List String
deriving DecidableEq, Repr

/-- One `(name, i)` task of the read graph: which file, which byte-range
start, the `names` override, and whether `header=None` was passed. -/
structure CsvTask where
  fileIdx : ℕ
  byteStart : ℕ
  names : Option (List String)
  headerDisabled : Bool
deriving DecidableEq, Repr

/-- `range(0, size, chunksize)`; `range` with a zero step raises, guarded
away since `parse_bytes` yields a positive chunk size. -/
def byteStarts (chunksize size : ℕ) : List ℕ :=
  if chunksize = 0 then []
  else (List.range ((size + chunksize - 1) / chunksize)).map (· * chunksize)

/-- The task list built by `read_csv`; `none` when there are no input
files (`filenames[0]` raises).  A chunk starting at byte 0 keeps the
caller's kwargs (header handling active); any other chunk gets
`names = meta.columns` (columns of the first FILE) and `header = None`. -/
def read_csv (chunksize : ℕ) (files : List CsvFile) : Option (List CsvTask) :=
  match files with
  | [] => Option.none
  | f0 :: _ =>
    let metaCols := f0.header
    some ((files.enum.map (fun fi =>
      (byteStarts chunksize fi.2.size).map (fun start =>
        if start = 0 then CsvTask.mk fi.1 start Option.none false
        else CsvTask.mk fi.1 start (some metaCols) true))).flatten)

/-! ### `concat` (core.py lines 160-188)

Inputs are modelled by their divisions.  When every input has known
divisions but they are not strictly ordered end-to-start, the
`if all(...)` body is skipped and — the `elif`/`else` arms belonging to
the OUTER `if` — the function falls off the end: Python returns `None`. -/

structure DTable where
  divisions : List (Option ℕ)
deriving DecidableEq, Repr

def DTable.known_divisions (t : DTable) : Bool := t.divisions.all (·.isSome)

def DTable.npartitions (t : DTable) : ℕ := t.divisions.length - 1

/-- `dfs[i].divisions[-1] < dfs[i+1].divisions[0]`; only evaluated under
the all-known guard, where both sides are actual values. -/
def pyLtOpt : Option ℕ → Option ℕ → Bool
  | some a, some b => a < b
  | _, _ => false

def lastDiv (t : DTable) : Option ℕ := t.divisions.getLast?.getD Option.none

def headDiv (t : DTable) : Option ℕ := t.divisions.head?.getD Option.none

def chainOrdered : List DTable → Bool
  | a :: b :: rest => pyLtOpt (lastDiv a) (headDiv b) && chainOrdered (b :: rest)
  | _ => true

/-- Divisions of `stack_partitions` in the ordered-known branch: each
table's divisions without its last, then the last table's in full. -/
def stackDivs (dfs : List DTable) : List (Option ℕ) :=
  (dfs.dropLast.map (fun d => d.divisions.dropLast)).flatten ++
    ((dfs.getLast?.map (·.divisions)).getD [])

inductive ConcatResult where
  | single (t : DTable)
  | stacked (divs : List (Option ℕ))
  | interleaved
  | pyNone
deriving DecidableEq, Repr

def concat (dfs : List DTable) (interleave_partitions : Bool) : ConcatResult :=
  if h : dfs.length = 1 then .single (dfs.head (by intro he; simp [he] at h))
  else if dfs.all DTable.known_divisions then
    (if chainOrdered dfs then .stacked (stackDivs dfs) else .pyNone)
  else if interleave_partitions then .interleaved
  else .stacked (List.replicate ((dfs.map DTable.npartitions).sum + 1) Option.none)

/-! ## Theorems -/

/-! ### C1: the `_align_divisions` repair loop -/

theorem totalCard_cons (a : Finset ℕ) (l : List (Finset ℕ)) :
    totalCard (a :: l) = a.card + totalCard l := by
  simp [totalCard]

theorem repairStep_of_empty (a b : Finset ℕ) (h : a ∩ b = ∅) :
    repairStep a b = (a, b, false) := by
  simp [repairStep, h]

theorem repairStep_of_lt (a b : Finset ℕ) (h : a ∩ b ≠ ∅) (hlt : a.card < b.card) :
    repairStep a b = (a ∪ a ∩ b, b \ (a ∩ b), true) := by
  simp [repairStep, h, hlt]

theorem repairStep_of_gt (a b : Finset ℕ) (h : a ∩ b ≠ ∅) (hgt : b.card < a.card) :
    repairStep a b = (a \ (a ∩ b), b ∪ a ∩ b, true) := by
  have : ¬a.card < b.card := by omega
  simp [repairStep, h, hgt, this]

theorem repairStep_of_tie (a b : Finset ℕ) (h : a ∩ b ≠ ∅) (heq : a.card = b.card) :
    repairStep a b = ((a ∪ a ∩ b) \ (a ∩ b), b, true) := by
  have h1 : ¬a.card < b.card := by omega
  have h2 : ¬b.card < a.card := by omega
  simp [repairStep, h, h1, h2]

theorem repairStep_card (a b : Finset ℕ) :
    (repairStep a b).1.card + (repairStep a b).2.1.card ≤ a.card + b.card ∧
      ((repairStep a b).2.2 = true →
        (repairStep a b).1.card + (repairStep a b).2.1.card < a.card + b.card) := by
  by_cases h : a ∩ b = ∅
  · rw [repairStep_of_empty a b h]
    simp
  · have hne : (a ∩ b).Nonempty := Finset.nonempty_iff_ne_empty.mpr h
    have hpos : 0 < (a ∩ b).card := Finset.card_pos.mpr hne
    have hsa : a ∩ b ⊆ a := Finset.inter_subset_left
    have hsb : a ∩ b ⊆ b := Finset.inter_subset_right
    have hca : (a ∩ b).card ≤ a.card := Finset.card_le_card hsa
    have hcb : (a ∩ b).card ≤ b.card := Finset.card_le_card hsb
    have hua : a ∪ a ∩ b = a := Finset.union_eq_left.mpr hsa
    have hub : b ∪ a ∩ b = b := Finset.union_eq_left.mpr hsb
    rcases lt_trichotomy a.card b.card with hlt | heq | hgt
    · rw [repairStep_of_lt a b h hlt]
      have hd : (b \ (a ∩ b)).card = b.card - (a ∩ b).card := Finset.card_sdiff hsb
      simp only [hua, hd]
      omega
    · rw [repairStep_of_tie a b h heq]
      have hd : ((a ∪ a ∩ b) \ (a ∩ b)).card = a.card - (a ∩ b).card := by
        rw [hua]; exact Finset.card_sdiff hsa
      simp only [hd]
      omega
    · rw [repairStep_of_gt a b h hgt]
      have hd : (a \ (a ∩ b)).card = a.card - (a ∩ b).card := Finset.card_sdiff hsa
      simp only [hub, hd]
      omega

theorem repairStep_false (a b : Finset ℕ) (h : (repairStep a b).2.2 = false) :
    repairStep a b = (a, b, false) ∧ a ∩ b = ∅ := by
  by_cases hi : a ∩ b = ∅
  · exact ⟨repairStep_of_empty a b hi, hi⟩
  · exfalso
    rcases lt_trichotomy a.card b.card with hlt | heq | hgt
    · rw [repairStep_of_lt a b hi hlt] at h; simp at h
    · rw [repairStep_of_tie a b hi heq] at h; simp at h
    · rw [repairStep_of_gt a b hi hgt] at h; simp at h

theorem scanPass_cons_fst (a b : Finset ℕ) (rest : List (Finset ℕ)) :
    (scanPass (a :: b :: rest)).1 =
      (repairStep a b).1 :: (scanPass ((repairStep a b).2.1 :: rest)).1 := by
  rw [scanPass]

theorem scanPass_cons_snd (a b : Finset ℕ) (rest : List (Finset ℕ)) :
    (scanPass (a :: b :: rest)).2 =
      ((repairStep a b).2.2 || (scanPass ((repairStep a b).2.1 :: rest)).2) := by
  rw [scanPass]

theorem scanPass_card (l : List (Finset ℕ)) :
    totalCard (scanPass l).1 ≤ totalCard l ∧
      ((scanPass l).2 = true → totalCard (scanPass l).1 < totalCard l) := by
  induction l using scanPass.induct with
  | case1 => simp [scanPass, totalCard]
  | case2 a => simp [scanPass, totalCard]
  | case3 a b rest s ih =>
    have hs : s = repairStep a b := rfl
    rw [hs] at ih
    rw [scanPass_cons_fst, scanPass_cons_snd]
    have hr := repairStep_card a b
    rcases ih with ⟨ih1, ih2⟩
    rw [totalCard_cons] at ih1
    constructor
    · simp only [totalCard_cons]
      omega
    · intro hc
      simp only [Bool.or_eq_true] at hc
      simp only [totalCard_cons]
      rw [totalCard_cons] at ih2
      rcases hc with hc | hc
      · have := hr.2 hc
        omega
      · have := ih2 hc
        omega

theorem scanPass_false (l : List (Finset ℕ)) (h : (scanPass l).2 = false) :
    (scanPass l).1 = l ∧ List.Chain' (fun a b => a ∩ b = ∅) l := by
  induction l using scanPass.induct with
  | case1 => simp [scanPass]
  | case2 a => simp [scanPass]
  | case3 a b rest s ih =>
    have hs : s = repairStep a b := rfl
    rw [hs] at ih
    rw [scanPass_cons_snd] at h
    rcases Bool.or_eq_false_iff.mp h with ⟨hs2, hr2⟩
    rcases repairStep_false a b hs2 with ⟨hstep, hdisj⟩
    rw [hstep] at ih hr2
    simp only at ih hr2
    obtain ⟨heq, hchain⟩ := ih hr2
    rw [scanPass_cons_fst, hstep]
    simp only
    exact ⟨by rw [heq], List.chain'_cons.mpr ⟨hdisj, hchain⟩⟩

theorem alignLoop_succ (fuel : ℕ) (l : List (Finset ℕ)) :
    alignLoop (fuel + 1) l =
      if (scanPass l).2 then alignLoop fuel (scanPass l).1 else some (scanPass l).1 := by
  rw [alignLoop]
  rcases h : scanPass l with ⟨l', c⟩
  cases c <;> simp

theorem alignLoop_mono (f f' : ℕ) (hle : f ≤ f') :
    ∀ l r, alignLoop f l = some r → alignLoop f' l = some r := by
  induction f generalizing f' with
  | zero => intro l r h; simp [alignLoop] at h
  | succ g ih =>
    intro l r h
    obtain ⟨g', rfl⟩ : ∃ g', f' = g' + 1 := ⟨f' - 1, by omega⟩
    rw [alignLoop_succ] at h ⊢
    by_cases hc : (scanPass l).2 = true
    · rw [if_pos hc] at h ⊢
      exact ih g' (by omega) (scanPass l).1 r h
    · rw [if_neg hc] at h ⊢
      exact h

theorem alignLoop_reaches_fixpoint (n : ℕ) :
    ∀ l : List (Finset ℕ), totalCard l ≤ n →
      ∃ r, alignLoop (n + 1) l = some r ∧ (scanPass r).2 = false ∧
        List.Chain' (fun a b => a ∩ b = ∅) r := by
  induction n with
  | zero =>
    intro l hl
    have hc := scanPass_card l
    by_cases hs : (scanPass l).2 = true
    · exfalso
      have := hc.2 hs
      omega
    · have hs' : (scanPass l).2 = false := Bool.eq_false_iff.mpr hs
      obtain ⟨heq, hchain⟩ := scanPass_false l hs'
      refine ⟨(scanPass l).1, ?_, ?_, ?_⟩
      · rw [alignLoop_succ, if_neg hs]
      · rw [heq]; exact hs'
      · rw [heq]; exact hchain
  | succ m ih =>
    intro l hl
    by_cases hs : (scanPass l).2 = true
    · have hlt : totalCard (scanPass l).1 < totalCard l := (scanPass_card l).2 hs
      obtain ⟨r, hloop, hfix, hchain⟩ := ih (scanPass l).1 (by omega)
      refine ⟨r, ?_, hfix, hchain⟩
      rw [alignLoop_succ, if_pos hs]
      exact hloop
    · have hs' : (scanPass l).2 = false := Bool.eq_false_iff.mpr hs
      obtain ⟨heq, hchain⟩ := scanPass_false l hs'
      refine ⟨(scanPass l).1, ?_, ?_, ?_⟩
      · rw [alignLoop_succ, if_neg hs]
      · rw [heq]; exact hs'
      · rw [heq]; exact hchain

/-- C1: for every list of partition key-set summaries, the
adjacent-intersection repair loop of `_align_divisions` terminates — within
`totalCard l + 1` full scans, a bound proportional to the total number of
keys — and upon termination (a scan reporting no change) no two adjacent
key-sets intersect. -/
theorem align_divisions_repair_terminates_disjoint (l : List (Finset ℕ)) :
    ∃ r, alignLoop (totalCard l + 1) l = some r ∧ (scanPass r).2 = false ∧
      List.Chain' (fun a b => a ∩ b = ∅) r :=
  alignLoop_reaches_fixpoint (totalCard l) l le_rfl

/-! ### C2 / C7 / C9: the tree reduction -/

theorem chunksOfF_flatten (se : ℕ) (hse : 1 ≤ se) :
    ∀ (fuel : ℕ) (l : List ℕ), l.length ≤ fuel → (chunksOfF fuel se l).flatten = l := by
  intro fuel
  induction fuel with
  | zero =>
    intro l hl
    have : l = [] := List.eq_nil_of_length_eq_zero (by omega)
    subst this
    simp [chunksOfF]
  | succ fuel ih =>
    intro l hl
    cases l with
    | nil => simp [chunksOfF]
    | cons x l =>
      rw [chunksOfF]
      rw [List.flatten_cons]
      have hd : ((x :: l).drop se).length ≤ fuel := by
        rw [List.length_drop]
        simp only [List.length_cons]
        simp only [List.length_cons] at hl
        omega
      rw [ih ((x :: l).drop se) hd]
      exact List.take_append_drop se (x :: l)

theorem chunksOfF_mem (se : ℕ) (hse : 1 ≤ se) :
    ∀ (fuel : ℕ) (l : List ℕ), ∀ c ∈ chunksOfF fuel se l, c.length ≤ se ∧ c ≠ [] := by
  intro fuel
  induction fuel with
  | zero => intro l c hc; simp [chunksOfF] at hc
  | succ fuel ih =>
    intro l c hc
    cases l with
    | nil => simp [chunksOfF] at hc
    | cons x l =>
      rw [chunksOfF] at hc
      rcases List.mem_cons.mp hc with h | h
      · subst h
        constructor
        · simp [List.length_take]
        · have : ((x :: l).take se).length = min se (l.length + 1) := by
            simp [List.length_take]
          intro hemp
          rw [hemp] at this
          simp at this
          omega
      · exact ih ((x :: l).drop se) c h

theorem chunksOfF_length_le (se : ℕ) (hse : 1 ≤ se) :
    ∀ (fuel : ℕ) (l : List ℕ), (chunksOfF fuel se l).length ≤ l.length := by
  intro fuel
  induction fuel with
  | zero => intro l; simp [chunksOfF]
  | succ fuel ih =>
    intro l
    cases l with
    | nil => simp [chunksOfF]
    | cons x l =>
      rw [chunksOfF]
      have h1 := ih ((x :: l).drop se)
      have h2 : ((x :: l).drop se).length = l.length + 1 - se := by simp
      simp only [List.length_cons]
      omega

theorem chunksOf_length_lt (se : ℕ) (l : List ℕ) (hse : 2 ≤ se) (hlt : se < l.length) :
    (chunksOf se l).length < l.length := by
  cases l with
  | nil => simp at hlt
  | cons x l =>
    rw [chunksOf]
    simp only [List.length_cons]
    rw [chunksOfF]
    simp only [List.length_cons]
    have h1 := chunksOfF_length_le se (by omega) (l.length) ((x :: l).drop se)
    rw [List.length_drop] at h1
    simp only [List.length_cons] at h1 hlt
    omega

theorem chunksOf_flatten (se : ℕ) (l : List ℕ) (hse : 1 ≤ se) :
    (chunksOf se l).flatten = l :=
  chunksOfF_flatten se hse l.length l le_rfl

theorem chunksOf_mem (se : ℕ) (l : List ℕ) (hse : 1 ≤ se) :
    ∀ c ∈ chunksOf se l, c.length ≤ se ∧ c ≠ [] :=
  chunksOfF_mem se hse l.length l

theorem combineNodes_isComb (se : ℕ) :
    ∀ (fuel k d : ℕ), ∀ node ∈ (combineNodes se fuel k d).1, node.key.isComb = true := by
  intro fuel
  induction fuel with
  | zero => intro k d node h; simp [combineNodes] at h
  | succ fuel ih =>
    intro k d node h
    rw [combineNodes] at h
    by_cases hk : se < k
    · rw [if_pos hk] at h
      simp only [List.mem_append] at h
      rcases h with h | h
      · simp only [List.mem_map] at h
        obtain ⟨pi, _, rfl⟩ := h
        rfl
      · exact ih _ _ node h
    · rw [if_neg hk] at h
      simp at h

theorem combineNodes_deps (se : ℕ) (hse : 1 ≤ se) :
    ∀ (fuel k d : ℕ), ∀ node ∈ (combineNodes se fuel k d).1,
      1 ≤ node.deps.length ∧ node.deps.length ≤ se := by
  intro fuel
  induction fuel with
  | zero => intro k d node h; simp [combineNodes] at h
  | succ fuel ih =>
    intro k d node h
    rw [combineNodes] at h
    by_cases hk : se < k
    · rw [if_pos hk] at h
      simp only [List.mem_append] at h
      rcases h with h | h
      · simp only [List.mem_map] at h
        obtain ⟨pi, hpi, rfl⟩ := h
        have hmem : pi.2 ∈ chunksOf se (List.range k) := by
          have : pi.2 ∈ (chunksOf se (List.range k)).enum.map Prod.snd :=
            List.mem_map_of_mem Prod.snd hpi
          rwa [List.enum_map_snd] at this
        obtain ⟨hle, hne⟩ := chunksOf_mem se (List.range k) hse pi.2 hmem
        constructor
        · simp only [List.length_map]
          have := List.length_pos.mpr hne
          omega
        · simp only [List.length_map]
          exact hle
      · exact ih _ _ node h
    · rw [if_neg hk] at h
      simp at h

theorem combineNodes_final_le (se : ℕ) (hse : 2 ≤ se) :
    ∀ (fuel k d : ℕ), k ≤ fuel → (combineNodes se fuel k d).2.1 ≤ se := by
  intro fuel
  induction fuel with
  | zero =>
    intro k d hk
    have hk0 : k = 0 := by omega
    subst hk0
    simp [combineNodes]
  | succ fuel ih =>
    intro k d hk
    rw [combineNodes]
    by_cases hkk : se < k
    · rw [if_pos hkk]
      have hlt : (chunksOf se (List.range k)).length < k := by
        have := chunksOf_length_lt se (List.range k) hse (by simp; omega)
        simpa using this
      exact ih _ _ (by omega)
    · rw [if_neg hkk]
      show k ≤ se
      omega

theorem countP_chunkNodes_chunk (np : ℕ) :
    (chunkNodes np).countP (fun n => n.key.isChunk) = np := by
  rw [chunkNodes, List.countP_eq_length.mpr]
  · simp
  · intro n hn
    simp only [List.mem_map] at hn
    obtain ⟨i, _, rfl⟩ := hn
    rfl

theorem countP_chunkNodes_agg (np : ℕ) :
    (chunkNodes np).countP (fun n => n.key.isAgg) = 0 := by
  rw [chunkNodes, List.countP_eq_zero.mpr]
  intro n hn
  simp only [List.mem_map] at hn
  obtain ⟨i, _, rfl⟩ := hn
  simp [RKey.isAgg, RKey.isChunk]

theorem countP_reductionGraph_agg (se np : ℕ) :
    (reductionGraph se np).countP (fun n => n.key.isAgg) = 1 := by
  rw [reductionGraph]
  simp only [List.countP_append]
  rw [countP_chunkNodes_agg]
  rw [List.countP_eq_zero.mpr]
  · simp [List.countP_cons, aggNode, RKey.isAgg]
  · intro n hn
    have := combineNodes_isComb se np np 0 n hn
    cases hk : n.key <;> simp_all [RKey.isComb, RKey.isAgg]

theorem countP_reductionGraph_chunk (se np : ℕ) :
    (reductionGraph se np).countP (fun n => n.key.isChunk) = np := by
  rw [reductionGraph]
  simp only [List.countP_append]
  rw [countP_chunkNodes_chunk]
  rw [List.countP_eq_zero.mpr]
  · simp [List.countP_cons, aggNode, RKey.isChunk]
  · intro n hn
    have := combineNodes_isComb se np np 0 n hn
    cases hk : n.key <;> simp_all [RKey.isComb, RKey.isChunk]

/-- C2: in a tree reduction the combine phase groups the outstanding
results into consecutive buckets of size at most `split_every` — each
combine node consumes one nonempty bucket, the buckets of a level
concatenate (in order) to exactly the previous level's results, and the
loop stops with at most `split_every` results which the single aggregate
node consumes; concretely, for 20 partitions and `split_every = 8` the
graph has 20 chunk nodes, one combine level of 3 nodes over buckets of
sizes (8, 8, 4), and one aggregate node consuming those 3. -/
theorem reduction_combine_levels :
    (∀ se np : ℕ, 2 ≤ se →
      (∀ node ∈ (combineNodes se np np 0).1,
        node.key.isComb = true ∧ 1 ≤ node.deps.length ∧ node.deps.length ≤ se) ∧
      (∀ k : ℕ, (chunksOf se (List.range k)).flatten = List.range k) ∧
      (combineNodes se np np 0).2.1 ≤ se ∧
      (reductionGraph se np).countP (fun n => n.key.isChunk) = np ∧
      (reductionGraph se np).countP (fun n => n.key.isAgg) = 1) ∧
    ((reductionGraph 8 20).countP (fun n => n.key.isChunk) = 20 ∧
      ((reductionGraph 8 20).filter (fun n => n.key.isComb)).map (fun n => n.deps.length)
        = [8, 8, 4] ∧
      ((reductionGraph 8 20).filter (fun n => n.key.isComb)).map (fun n => n.key)
        = [.comb 1 0, .comb 1 1, .comb 1 2] ∧
      ((reductionGraph 8 20).filter (fun n => n.key.isAgg)).map (fun n => n.deps)
        = [[.comb 1 0, .comb 1 1, .comb 1 2]]) := by
  constructor
  · intro se np hse
    refine ⟨?_, ?_, ?_, ?_, ?_⟩
    · intro node hn
      exact ⟨combineNodes_isComb se np np 0 node hn,
        combineNodes_deps se (by omega) np np 0 node hn⟩
    · intro k
      exact chunksOf_flatten se (List.range k) (by omega)
    · exact combineNodes_final_le se hse np np 0 le_rfl
    · exact countP_reductionGraph_chunk se np
    · exact countP_reductionGraph_agg se np
  · refine ⟨?_, ?_, ?_, ?_⟩ <;> decide

/-- C2 witness: the general statement instantiated at `split_every = 8`
over 20 partitions. -/
theorem reduction_combine_levels_witness :
    (∀ node ∈ (combineNodes 8 20 20 0).1,
      node.key.isComb = true ∧ 1 ≤ node.deps.length ∧ node.deps.length ≤ 8) ∧
    (combineNodes 8 20 20 0).2.1 ≤ 8 ∧
    (reductionGraph 8 20).countP (fun n => n.key.isChunk) = 20 ∧
    (reductionGraph 8 20).countP (fun n => n.key.isAgg) = 1 := by
  obtain ⟨h1, _, h3, h4, h5⟩ := reduction_combine_levels.1 8 20 (by omega)
  exact ⟨h1, h3, h4, h5⟩

/-- C7: any `split_every` other than `None`, `False` or an integer `≥ 2`
is rejected with a `ValueError` before any graph node is built (the
embedding sequences validation before graph construction exactly as the
source does); `None` selects the default fan-in 8 and `False` a fan-in
equal to the partition count. -/
theorem reduction_split_every_validation (se : PySplitEvery) (np : ℕ) :
    ((se ≠ .none ∧ se ≠ .pyFalse ∧ ∀ n : ℤ, 2 ≤ n → se ≠ .int n) →
      reduction se np = .error "split_every must be an integer >= 2") ∧
    reduction .none np = .ok ⟨reductionGraph 8 np, [Option.none, Option.none]⟩ ∧
    reduction .pyFalse np = .ok ⟨reductionGraph np np, [Option.none, Option.none]⟩ := by
  refine ⟨?_, rfl, rfl⟩
  intro ⟨h1, h2, h3⟩
  cases se with
  | none => exact absurd rfl h1
  | pyFalse => exact absurd rfl h2
  | pyTrue => rfl
  | int n =>
    have hn : n < 2 := by
      by_contra hc
      exact h3 n (by omega) rfl
    simp [reduction, resolveSplitEvery, hn]
  | float q => rfl

/-- C7 witness: `split_every = 1` is rejected; `None` and `False` resolve
to fan-in 8 and the partition count. -/
theorem reduction_split_every_validation_witness :
    reduction (.int 1) 5 = .error "split_every must be an integer >= 2" ∧
    reduction .none 5 = .ok ⟨reductionGraph 8 5, [Option.none, Option.none]⟩ ∧
    reduction .pyFalse 5 = .ok ⟨reductionGraph 5 5, [Option.none, Option.none]⟩ := by
  have h := reduction_split_every_validation (.int 1) 5
  refine ⟨h.1 ⟨by simp, by simp, ?_⟩, h.2.1, h.2.2⟩
  intro n hn he
  cases he
  omega

/-- C9: every successful `reduction` call returns a table whose divisions
are the two-element unknown sequence `(None, None)` — hence exactly one
output partition — containing exactly one aggregate node, regardless of
the input's partition count. -/
theorem reduction_output_single_partition (se : PySplitEvery) (np : ℕ) (t : RTable)
    (h : reduction se np = .ok t) :
    t.divisions = [Option.none, Option.none] ∧ t.npartitions = 1 ∧
      t.nodes.countP (fun n => n.key.isAgg) = 1 := by
  rw [reduction] at h
  rcases hr : resolveSplitEvery np se with e | k
  · rw [hr] at h; cases h
  · rw [hr] at h
    cases h
    exact ⟨rfl, rfl, countP_reductionGraph_agg k np⟩

/-- C9 witness: `reduction` with the default `split_every` over 5
partitions. -/
theorem reduction_output_single_partition_witness :
    (RTable.mk (reductionGraph 8 5) [Option.none, Option.none]).divisions
        = [Option.none, Option.none] ∧
      (RTable.mk (reductionGraph 8 5) [Option.none, Option.none]).npartitions = 1 ∧
      (RTable.mk (reductionGraph 8 5) [Option.none, Option.none]).nodes.countP
          (fun n => n.key.isAgg) = 1 :=
  reduction_output_single_partition .none 5 _ rfl

/-! ### C4: `_compute_divisions` and empty partitions -/

theorem seqOptions_of_none (l : List (Option ℕ)) (h : Option.none ∈ l) :
    seqOptions l = Option.none := by
  induction l with
  | nil => simp at h
  | cons o rest ih =>
    cases o with
    | none => rw [seqOptions]
    | some x =>
      rw [seqOptions]
      rcases List.mem_cons.mp h with h1 | h1
      · cases h1
      · rw [ih h1]
        rfl

theorem seqOptions_of_all_some (l : List (Option ℕ)) (h : ∀ o ∈ l, o.isSome) :
    ∃ ds, seqOptions l = some ds ∧ ds.map some = l := by
  induction l with
  | nil => exact ⟨[], rfl, rfl⟩
  | cons o rest ih =>
    cases o with
    | none =>
      have := h Option.none (List.mem_cons_self _ _)
      simp at this
    | some x =>
      obtain ⟨ds, hds, hmap⟩ := ih (fun o ho => h o (List.mem_cons_of_mem _ ho))
      refine ⟨x :: ds, ?_, ?_⟩
      · rw [seqOptions, hds]
        rfl
      · simp [hmap]

/-- C4 counterexample: on a table with partitions `[1,2]`, `[]`, `[5]`
and unknown divisions, `_compute_divisions` does NOT filter the empty
partition — it takes `df.index[0]` of every partition, and the empty
partition's boundary access raises (embedded as `none`), so no division
sequence is produced at all, let alone one formed only from the
non-empty partitions (`[1, 5, 5]`). -/
theorem compute_divisions_empty_partition_crashes :
    compute_divisions [[1, 2], [], [5]] = Option.none ∧
      Option.none ≠ some [1, 5, 5] := by
  decide

/-- C4 (amended): `_compute_divisions` performs no empty-partition
filtering.  It computes the first index value of EVERY partition (empty
or not) plus the last index value of the final partition; if any
partition is empty the boundary computation fails, and when all
partitions are nonempty the division sequence is exactly
`first_0, ..., first_{N-1}, last_{N-1}` with no partition dropped.  (The
`filter(bool, uniques)` step the spec describes lives in
`_align_divisions`, core.py line 363, not in `_compute_divisions`.) -/
theorem compute_divisions_no_filtering (parts : List (List ℕ)) :
    ((∃ p ∈ parts, p = []) → compute_divisions parts = Option.none) ∧
      (∀ he : parts ≠ [], (∀ p ∈ parts, p ≠ []) →
        ∃ ds, compute_divisions parts = some ds ∧
          ds.map some = parts.map first_index ++ [last_index (parts.getLast he)]) := by
  constructor
  · rintro ⟨p, hp, rfl⟩
    rw [compute_divisions]
    have hne : parts ≠ [] := List.ne_nil_of_mem hp
    rcases hlast : parts.getLast? with _ | lp
    · rfl
    · apply seqOptions_of_none
      apply List.mem_append_left
      have : first_index ([] : List ℕ) = Option.none := rfl
      rw [← this]
      exact List.mem_map_of_mem first_index hp
  · intro he hne
    rw [compute_divisions]
    have hlast : parts.getLast? = some (parts.getLast he) := List.getLast?_eq_getLast parts he
    rw [hlast]
    apply seqOptions_of_all_some
    intro o ho
    rcases List.mem_append.mp ho with h | h
    · simp only [List.mem_map] at h
      obtain ⟨p, hp, rfl⟩ := h
      have := hne p hp
      cases p with
      | nil => exact absurd rfl this
      | cons x xs => rfl
    · simp only [List.mem_singleton] at h
      subst h
      have hl := hne (parts.getLast he) (List.getLast_mem he)
      rw [last_index, List.getLast?_eq_getLast _ hl]
      rfl

/-- C4 witness: the amended theorem applied to a table with an empty
partition (boundary computation fails) and to an all-nonempty table
(divisions are every partition's first index plus the last partition's
last index). -/
theorem compute_divisions_no_filtering_witness :
    compute_divisions [[1, 2], [], [5]] = Option.none ∧
      ∃ ds, compute_divisions [[1, 2], [3, 4], [5]] = some ds ∧
        ds.map some = [[1, 2], [3, 4], [5]].map first_index ++
          [last_index ([[1, 2], [3, 4], [5]].getLast (by decide))] := by
  constructor
  · exact (compute_divisions_no_filtering [[1, 2], [], [5]]).1 ⟨[], by decide, rfl⟩
  · exact (compute_divisions_no_filtering [[1, 2], [3, 4], [5]]).2 (by decide) (by decide)

/-! ### C10: `concat` with known but unordered divisions -/

/-- C10: with two or more inputs, all with known divisions, that are not
strictly ordered end-to-start, the `if all(...)` body is skipped and no
other branch applies (the `elif`/`else` belong to the outer `if`), so
`concat` returns Python `None` — no table and no error — regardless of
`interleave_partitions`. -/
theorem concat_known_unordered_returns_none (dfs : List DTable) (il : Bool)
    (hlen : 2 ≤ dfs.length) (hknown : ∀ t ∈ dfs, t.known_divisions = true)
    (hord : chainOrdered dfs = false) :
    concat dfs il = .pyNone := by
  rw [concat]
  rw [dif_neg (by omega)]
  rw [if_pos (List.all_eq_true.mpr hknown)]
  rw [if_neg (by simp [hord])]

/-- C10 witness: two tables with known divisions `[0, 5]` and `[3, 9]`
(5 < 3 fails), with `interleave_partitions = True`. -/
theorem concat_known_unordered_returns_none_witness :
    concat [⟨[some 0, some 5]⟩, ⟨[some 3, some 9]⟩] true = .pyNone :=
  concat_known_unordered_returns_none _ _ (by decide) (by decide) (by decide)

/-! ### C5: `_align_to_indices` divisions are computed but not attached -/

theorem seqOptions_some_eq (l : List (Option ℕ)) (ds : List ℕ)
    (h : seqOptions l = some ds) : ds.map some = l := by
  induction l generalizing ds with
  | nil =>
    rw [seqOptions] at h
    injection h with h
    subst h
    rfl
  | cons o rest ih =>
    cases o with
    | none => rw [seqOptions] at h; cases h
    | some x =>
      rw [seqOptions] at h
      rcases hr : seqOptions rest with _ | ds'
      · rw [hr] at h; cases h
      · rw [hr] at h
        simp only [Option.map_some'] at h
        injection h with h
        subst h
        simp [ih ds' hr]

theorem foldl_insertKey (l : List (Finset ℕ)) :
    ∀ acc : List (Finset ℕ),
      (acc.Nodup → (l.foldl insertKey acc).Nodup) ∧
      (∀ s, s ∈ l.foldl insertKey acc ↔ s ∈ acc ∨ s ∈ l) ∧
      (l.foldl insertKey acc).length ≤ acc.length + l.length := by
  induction l with
  | nil =>
    intro acc
    refine ⟨fun h => h, fun s => by simp, by simp⟩
  | cons a l ih =>
    intro acc
    rw [List.foldl_cons]
    obtain ⟨ihn, ihm, ihl⟩ := ih (insertKey acc a)
    have hmem : ∀ s, s ∈ insertKey acc a ↔ s ∈ acc ∨ s = a := by
      intro s
      rw [insertKey]
      by_cases ha : a ∈ acc
      · rw [if_pos ha]
        constructor
        · exact fun h => Or.inl h
        · rintro (h | rfl)
          · exact h
          · exact ha
      · rw [if_neg ha]
        simp
    refine ⟨?_, ?_, ?_⟩
    · intro hnd
      apply ihn
      rw [insertKey]
      by_cases ha : a ∈ acc
      · rw [if_pos ha]; exact hnd
      · rw [if_neg ha]
        rw [List.nodup_append]
        refine ⟨hnd, List.nodup_singleton a, ?_⟩
        intro x hx hy
        rw [List.mem_singleton] at hy
        subst hy
        exact ha hx
    · intro s
      rw [ihm s, hmem s]
      simp only [List.mem_cons]
      tauto
    · have hle : (insertKey acc a).length ≤ acc.length + 1 := by
        rw [insertKey]
        by_cases ha : a ∈ acc
        · rw [if_pos ha]; omega
        · rw [if_neg ha]; simp
      simp only [List.length_cons]
      omega

theorem remapKeys_nodup (uniques : List (Finset ℕ)) : (remapKeys uniques).Nodup :=
  (foldl_insertKey uniques []).1 List.nodup_nil

theorem remapKeys_mem (uniques : List (Finset ℕ)) :
    ∀ s, s ∈ remapKeys uniques ↔ s ∈ uniques := by
  intro s
  rw [remapKeys, (foldl_insertKey uniques []).2.1 s]
  simp

theorem remapKeys_length_le (uniques : List (Finset ℕ)) :
    (remapKeys uniques).length ≤ uniques.length := by
  have := (foldl_insertKey uniques []).2.2
  simpa [remapKeys] using this

/-- C5 counterexample: for buckets `{1,2}, {4,5}` the source computes the
division list `min` of each bucket plus `max` of the last —
`[1, 4, 5]` — into a local variable, but builds the returned table with
`from_delayed(newparts, meta=self._meta)` and never passes it, so the
returned table's divisions are the unknown sequence
`(None, None, None)`, not `[1, 4, 5]`. -/
theorem align_to_indices_divisions_not_attached :
    align_to_indices_tail [{1, 2}, {4, 5}] [{1, 2}, {4, 5}] =
      some (⟨[Option.none, Option.none, Option.none]⟩, [1, 4, 5]) ∧
      ([Option.none, Option.none, Option.none] : List (Option ℕ))
        ≠ [some 1, some 4, some 5] := by
  decide

/-- C5 (amended): `_align_to_indices` computes the division sequence
"min of each bucket (duplicates included), then max of the last bucket"
(core.py lines 425-426) into a local variable, but that variable is
dead: the table is returned via `from_delayed` with no divisions
argument, so the Table actually returned has unknown divisions — one
`None` per `remap` entry (one per DISTINCT key-set bucket, duplicate
buckets collapsing onto one partition) plus one more; and the call
aborts (`none`) where the source raises: empty `originals`/`uniques`,
or a `min`/`max` over an empty bucket. -/
theorem align_to_indices_returns_unknown_divisions
    (originals uniques0 : List (Finset ℕ)) (t : AlignedTable) (divs : List ℕ)
    (h : align_to_indices_tail originals uniques0 = some (t, divs)) :
    ∃ uniques, extrasStep originals uniques0 = some uniques ∧
      t.divisions = List.replicate ((remapKeys uniques).length + 1) Option.none ∧
      (∀ d ∈ t.divisions, d = Option.none) ∧
      divs.map some = uniques.map pyMinF ++ [uniques.getLast?.bind pyMaxF] ∧
      (remapKeys uniques).Nodup ∧
      (∀ s, s ∈ remapKeys uniques ↔ s ∈ uniques) ∧
      (remapKeys uniques).length ≤ uniques.length := by
  rw [align_to_indices_tail] at h
  split at h
  · cases h
  · rename_i uniques he
    split at h
    · cases h
    · rename_i divisions hs
      injection h with h
      injection h with h1 h2
      subst h2
      refine ⟨uniques, he, ?_, ?_, ?_, remapKeys_nodup uniques, remapKeys_mem uniques,
        remapKeys_length_le uniques⟩
      · rw [← h1]
      · intro d hd
        rw [← h1] at hd
        exact List.eq_of_mem_replicate hd
      · exact seqOptions_some_eq _ _ hs

/-- C5 witness: buckets `{1}, {2}, {1}` — adjacent-disjoint, so they
survive the repair loop, yet the first and third are equal: `remap`
deduplicates them into 2 entries, so the returned table has 3 unknown
divisions while the dead local divisions list `[1, 2, 1, 1]` has 4
entries. -/
theorem align_to_indices_returns_unknown_divisions_witness :
    ∃ uniques, extrasStep [{1}, {2}, {1}] [{1}, {2}, {1}] = some uniques ∧
      (AlignedTable.mk [Option.none, Option.none, Option.none]).divisions
          = List.replicate ((remapKeys uniques).length + 1) Option.none ∧
      (∀ d ∈ (AlignedTable.mk [Option.none, Option.none, Option.none]).divisions,
        d = Option.none) ∧
      ([1, 2, 1, 1] : List ℕ).map some
          = uniques.map pyMinF ++ [uniques.getLast?.bind pyMaxF] ∧
      (remapKeys uniques).Nodup ∧
      (∀ s, s ∈ remapKeys uniques ↔ s ∈ uniques) ∧
      (remapKeys uniques).length ≤ uniques.length :=
  align_to_indices_returns_unknown_divisions [{1}, {2}, {1}] [{1}, {2}, {1}]
    ⟨[Option.none, Option.none, Option.none]⟩ [1, 2, 1, 1] (by decide)

/-! ### C8: `read_csv` chunk planning -/

/-- C8 counterexample: with two files whose headers differ
(file 0: `a, b`; file 1: `c, d`) and a 1-byte chunk size, the second
chunk of file 1 is read with `names = ["a", "b"]` — the columns of the
FIRST file's meta — not `["c", "d"]`, the columns of its own file's
first chunk, contradicting the claim for multi-file inputs. -/
theorem read_csv_names_not_per_file :
    read_csv 1 [⟨1, ["a", "b"]⟩, ⟨2, ["c", "d"]⟩] =
      some [⟨0, 0, Option.none, false⟩, ⟨1, 0, Option.none, false⟩,
        ⟨1, 1, some ["a", "b"], true⟩] ∧
      some (["a", "b"] : List String) ≠ some ["c", "d"] := by
  decide

/-- C8 (amended): for every `read_csv` call with a positive chunk size,
the byte-0 chunk of each input file keeps the caller's kwargs (header
handling active, no names override), and every later chunk of ANY file
is read with header parsing disabled and `names` equal to the column
names discovered from the FIRST input file's meta read — not from the
chunk's own file. -/
theorem read_csv_header_handling (chunksize : ℕ) (f0 : CsvFile) (fs : List CsvFile)
    (hcs : 1 ≤ chunksize) :
    ∃ plan, read_csv chunksize (f0 :: fs) = some plan ∧
      (∀ t ∈ plan,
        (t.byteStart = 0 → t.names = Option.none ∧ t.headerDisabled = false) ∧
        (t.byteStart ≠ 0 → t.names = some f0.header ∧ t.headerDisabled = true)) ∧
      (∀ fi ∈ (f0 :: fs).enum, 1 ≤ fi.2.size →
        CsvTask.mk fi.1 0 Option.none false ∈ plan) := by
  refine ⟨_, rfl, ?_, ?_⟩
  · intro t ht
    rw [List.mem_flatten] at ht
    obtain ⟨l, hl, htl⟩ := ht
    simp only [List.mem_map] at hl
    obtain ⟨fi, _, rfl⟩ := hl
    simp only [List.mem_map] at htl
    obtain ⟨start, _, rfl⟩ := htl
    by_cases h0 : start = 0
    · subst h0
      rw [if_pos rfl]
      exact ⟨fun _ => ⟨rfl, rfl⟩, fun h => absurd rfl h⟩
    · rw [if_neg h0]
      exact ⟨fun h => absurd h h0, fun _ => ⟨rfl, rfl⟩⟩
  · intro fi hfi hsize
    rw [List.mem_flatten]
    refine ⟨(byteStarts chunksize fi.2.size).map (fun start =>
      if start = 0 then CsvTask.mk fi.1 start Option.none false
      else CsvTask.mk fi.1 start (some f0.header) true), ?_, ?_⟩
    · exact List.mem_map_of_mem _ hfi
    · have h0 : (0 : ℕ) ∈ byteStarts chunksize fi.2.size := by
        rw [byteStarts, if_neg (by omega)]
        simp only [List.mem_map]
        refine ⟨0, ?_, by omega⟩
        rw [List.mem_range]
        have h1 : 1 ≤ (fi.2.size + chunksize - 1) / chunksize := by
          rw [Nat.le_div_iff_mul_le (by omega)]
          omega
        omega
      have := List.mem_map_of_mem (fun start =>
        if start = 0 then CsvTask.mk fi.1 start Option.none false
        else CsvTask.mk fi.1 start (some f0.header) true) h0
      simpa using this

/-- C8 witness: the amended theorem at chunk size 1 over the two files of
the counterexample. -/
theorem read_csv_header_handling_witness :
    ∃ plan, read_csv 1 [⟨1, ["a", "b"]⟩, ⟨2, ["c", "d"]⟩] = some plan ∧
      (∀ t ∈ plan,
        (t.byteStart = 0 → t.names = Option.none ∧ t.headerDisabled = false) ∧
        (t.byteStart ≠ 0 →
          t.names = some (CsvFile.mk 1 ["a", "b"]).header ∧ t.headerDisabled = true)) ∧
      (∀ fi ∈ ([⟨1, ["a", "b"]⟩, ⟨2, ["c", "d"]⟩] : List CsvFile).enum, 1 ≤ fi.2.size →
        CsvTask.mk fi.1 0 Option.none false ∈ plan) :=
  read_csv_header_handling 1 ⟨1, ["a", "b"]⟩ [⟨2, ["c", "d"]⟩] (by decide)

/-! ### C3: the join partition selectors -/

theorem get_congr_idx (l : List (Finset ℕ)) (i j : ℕ) (hi : i < l.length)
    (hj : j < l.length) (hij : i = j) : l.get ⟨i, hi⟩ = l.get ⟨j, hj⟩ := by
  subst hij
  rfl

theorem findFromAux_some (u : Finset ℕ) :
    ∀ (l : List (Finset ℕ)) (j r : ℕ), findFromAux u l j = some r →
      ∃ m, r = j + m ∧ ∃ h : m < l.length, u ∩ l.get ⟨m, h⟩ ≠ ∅ ∧
        ∀ m' (hm : m' < l.length), m' < m → u ∩ l.get ⟨m', hm⟩ = ∅ := by
  intro l
  induction l with
  | nil => intro j r h; simp [findFromAux] at h
  | cons v rest ih =>
    intro j r h
    rw [findFromAux] at h
    by_cases hv : u ∩ v ≠ ∅
    · rw [if_pos hv] at h
      injection h with h
      subst h
      refine ⟨0, by omega, by simp, ?_, ?_⟩
      · exact hv
      · intro m' hm hlt
        omega
    · rw [if_neg hv] at h
      obtain ⟨m, hm, hlen, hint, hbefore⟩ := ih (j + 1) r h
      refine ⟨m + 1, by omega, by simp; omega, ?_, ?_⟩
      · exact hint
      · intro m' hm' hlt
        cases m' with
        | zero => exact not_not.mp hv
        | succ m'' => exact hbefore m'' (by simp at hm'; omega) (by omega)

theorem findFromAux_none (u : Finset ℕ) :
    ∀ (l : List (Finset ℕ)) (j : ℕ), findFromAux u l j = Option.none →
      ∀ m (hm : m < l.length), u ∩ l.get ⟨m, hm⟩ = ∅ := by
  intro l
  induction l with
  | nil => intro j _ m hm; simp at hm
  | cons v rest ih =>
    intro j h m hm
    rw [findFromAux] at h
    by_cases hv : u ∩ v ≠ ∅
    · rw [if_pos hv] at h
      cases h
    · rw [if_neg hv] at h
      cases m with
      | zero => exact not_not.mp hv
      | succ m' => exact ih (j + 1) h m' (by simp at hm; omega)

theorem findFrom_some (u : Finset ℕ) (ru : List (Finset ℕ)) (pivot j : ℕ)
    (h : findFrom u ru pivot = some j) :
    pivot ≤ j ∧ ∃ hj : j < ru.length, u ∩ ru.get ⟨j, hj⟩ ≠ ∅ ∧
      ∀ k (hk : k < ru.length), pivot ≤ k → k < j → u ∩ ru.get ⟨k, hk⟩ = ∅ := by
  rw [findFrom] at h
  obtain ⟨m, rfl, hlen, hint, hbefore⟩ := findFromAux_some u (ru.drop pivot) pivot j h
  rw [List.length_drop] at hlen
  have hj : pivot + m < ru.length := by omega
  refine ⟨by omega, hj, ?_, ?_⟩
  · rw [List.get_drop ru hj]
    exact hint
  · intro k hk hk1 hk2
    have hkp : k = pivot + (k - pivot) := by omega
    rw [get_congr_idx ru k (pivot + (k - pivot)) hk (by omega) hkp]
    rw [List.get_drop ru (by omega)]
    exact hbefore (k - pivot) (by rw [List.length_drop]; omega) (by omega)

theorem findFrom_none (u : Finset ℕ) (ru : List (Finset ℕ)) (pivot : ℕ)
    (h : findFrom u ru pivot = Option.none) :
    ∀ k (hk : k < ru.length), pivot ≤ k → u ∩ ru.get ⟨k, hk⟩ = ∅ := by
  rw [findFrom] at h
  intro k hk hk1
  have hkp : k = pivot + (k - pivot) := by omega
  rw [get_congr_idx ru k (pivot + (k - pivot)) hk (by omega) hkp]
  rw [List.get_drop ru (by omega)]
  exact findFromAux_none u (ru.drop pivot) pivot h (k - pivot)
    (by rw [List.length_drop]; omega)

theorem leftSel_map_fst (ru : List (Finset ℕ)) :
    ∀ (lus : List (Finset ℕ)) (i pivot : ℕ),
      (leftSel ru lus i pivot).map Prod.fst = List.range' i lus.length := by
  intro lus
  induction lus with
  | nil => intro i pivot; simp [leftSel]
  | cons u rest ih =>
    intro i pivot
    rw [leftSel]
    rcases h : findFrom u ru pivot with _ | j
    · simp only [List.map_cons, List.length_cons, List.range'_succ]
      rw [ih]
    · simp only [List.map_cons, List.length_cons, List.range'_succ]
      rw [ih]

theorem innerSel_eq_filterMap (ru : List (Finset ℕ)) :
    ∀ (lus : List (Finset ℕ)) (i pivot : ℕ),
      innerSel ru lus i pivot =
        (leftSel ru lus i pivot).filterMap (fun p => p.2.map (fun j => (p.1, j))) := by
  intro lus
  induction lus with
  | nil => intro i pivot; simp [innerSel, leftSel]
  | cons u rest ih =>
    intro i pivot
    rw [innerSel, leftSel]
    rcases h : findFrom u ru pivot with _ | j
    · rw [List.filterMap_cons]
      simp only [Option.map_none]
      exact ih (i + 1) pivot
    · rw [List.filterMap_cons]
      simp only [Option.map_some']
      rw [ih (i + 1) (j + 1)]

theorem leftSel_matches_monotone (ru : List (Finset ℕ)) :
    ∀ (lus : List (Finset ℕ)) (i pivot : ℕ),
      (∀ j ∈ (leftSel ru lus i pivot).filterMap (fun p => p.2), pivot ≤ j) ∧
        List.Pairwise (· < ·) ((leftSel ru lus i pivot).filterMap (fun p => p.2)) := by
  intro lus
  induction lus with
  | nil => intro i pivot; simp [leftSel]
  | cons u rest ih =>
    intro i pivot
    rw [leftSel]
    rcases h : findFrom u ru pivot with _ | j
    · rw [List.filterMap_cons]
      simp only [Option.map_none]
      exact ih (i + 1) pivot
    · rw [List.filterMap_cons]
      simp only
      have hpj : pivot ≤ j := (findFrom_some u ru pivot j h).1
      obtain ⟨hge, hpw⟩ := ih (i + 1) (j + 1)
      constructor
      · intro j' hj'
        rcases List.mem_cons.mp hj' with rfl | hj'
        · exact hpj
        · have := hge j' hj'
          omega
      · rw [List.pairwise_cons]
        refine ⟨?_, hpw⟩
        intro j' hj'
        have := hge j' hj'
        omega

/-- C3: in an index-aligned join, `left_selector` yields exactly one
output per left partition, in order (`map fst = range`); a matched entry
pairs the left partition with the first right partition at or after the
current pivot whose key-set intersects its own, and an unmatched entry
means no right partition from the pivot on intersects (`findFrom`
characterisation); matched right indices are strictly increasing, so
each right partition is consumed at most once and the pivot advances
monotonically; `inner_selector` is exactly `left_selector` with the
unmatched left partitions producing no output; and `fix_column` emits an
unmatched left partition against the right schema's columns with every
value null, so the output schema is the union of (suffixed) left and
right columns and the left rows (of length `len(lhs)`) are carried over
unchanged. -/
theorem join_selectors (lu ru : List (Finset ℕ)) :
    ((left_selector lu ru).map Prod.fst = List.range lu.length) ∧
    (inner_selector lu ru =
      (left_selector lu ru).filterMap (fun p => p.2.map (fun j => (p.1, j)))) ∧
    (List.Pairwise (· < ·) ((left_selector lu ru).filterMap (fun p => p.2))) ∧
    (∀ u pivot j, findFrom u ru pivot = some j →
      pivot ≤ j ∧ ∃ hj : j < ru.length, u ∩ ru.get ⟨j, hj⟩ ≠ ∅ ∧
        ∀ k (hk : k < ru.length), pivot ≤ k → k < j → u ∩ ru.get ⟨k, hk⟩ = ∅) ∧
    (∀ u pivot, findFrom u ru pivot = Option.none →
      ∀ k (hk : k < ru.length), pivot ≤ k → u ∩ ru.get ⟨k, hk⟩ = ∅) ∧
    (∀ (ls rs : String) (rcols : List String) (lhs : PartFrame),
      ((fix_column ls rs rcols lhs).cols.map Prod.fst =
        lhs.cols.map (fun kc => kc.1 ++ ls) ++ rcols.map (fun k => k ++ rs)) ∧
      (∀ kc ∈ lhs.cols,
        ((kc.1 ++ ls, kc.2) : String × List (Option ℕ)) ∈ (fix_column ls rs rcols lhs).cols) ∧
      (∀ k ∈ rcols,
        ((k ++ rs, List.replicate lhs.nrows Option.none) : String × List (Option ℕ))
          ∈ (fix_column ls rs rcols lhs).cols)) := by
  refine ⟨?_, ?_, ?_, ?_, ?_, ?_⟩
  · rw [left_selector, leftSel_map_fst, List.range_eq_range']
  · rw [left_selector, inner_selector, innerSel_eq_filterMap]
  · exact (leftSel_matches_monotone ru lu 0 0).2
  · intro u pivot j h
    exact findFrom_some u ru pivot j h
  · intro u pivot h
    exact findFrom_none u ru pivot h
  · intro ls rs rcols lhs
    refine ⟨?_, ?_, ?_⟩
    · rw [fix_column]
      simp only [List.map_append, List.map_map]
      rfl
    · intro kc hkc
      rw [fix_column]
      apply List.mem_append_left
      exact List.mem_map_of_mem _ hkc
    · intro k hk
      rw [fix_column]
      apply List.mem_append_right
      exact List.mem_map_of_mem _ hk

/-- C3 witness: the selectors on left key-sets `{1}, {2,3}, {9}` and
right key-sets `{2,3}, {5,6,7}`: one output per left partition,
`inner_selector` drops the unmatched ones, and matched right indices are
strictly increasing. -/
theorem join_selectors_witness :
    ((left_selector [{1}, {2, 3}, {9}] [{2, 3}, {5, 6, 7}]).map Prod.fst
        = List.range ([{1}, {2, 3}, {9}] : List (Finset ℕ)).length) ∧
      (inner_selector [{1}, {2, 3}, {9}] [{2, 3}, {5, 6, 7}] =
        (left_selector [{1}, {2, 3}, {9}] [{2, 3}, {5, 6, 7}]).filterMap
          (fun p => p.2.map (fun j => (p.1, j)))) ∧
      List.Pairwise (· < ·)
        ((left_selector [{1}, {2, 3}, {9}] [{2, 3}, {5, 6, 7}]).filterMap (fun p => p.2)) := by
  have h := join_selectors [{1}, {2, 3}, {9}] [{2, 3}, {5, 6, 7}]
  exact ⟨h.1, h.2.1, h.2.2.1⟩

/-! ### C6: `sort_values_binned` key exclusivity -/

theorem innerJoin_nil (u : Finset ℕ) : innerJoin u [] = ([], []) := rfl

theorem innerJoin_cons_empty (u v : Finset ℕ) (rest : List (Finset ℕ))
    (h : u ∩ v = ∅) : innerJoin u (v :: rest) = ([], v :: rest) := by
  simp [innerJoin, h]

theorem innerJoin_cons_inter (u v : Finset ℕ) (rest : List (Finset ℕ))
    (h : u ∩ v ≠ ∅) :
    innerJoin u (v :: rest) =
      ((u ∩ v) :: (innerJoin u rest).1, (v \ (u ∩ v)) :: (innerJoin u rest).2) := by
  simp [innerJoin, h]

theorem innerJoin_snd_length (u : Finset ℕ) :
    ∀ l : List (Finset ℕ), (innerJoin u l).2.length = l.length := by
  intro l
  induction l with
  | nil => rfl
  | cons v rest ih =>
    by_cases h : u ∩ v = ∅
    · rw [innerJoin_cons_empty u v rest h]
    · rw [innerJoin_cons_inter u v rest h]
      simp [ih]

theorem innerJoin_get? (u : Finset ℕ) :
    ∀ (l : List (Finset ℕ)) (r : ℕ),
      (innerJoin u l).2.get? r = l.get? r ∨
        ∃ t, l.get? r = some t ∧ (innerJoin u l).2.get? r = some (t \ u) := by
  intro l
  induction l with
  | nil => intro r; left; rfl
  | cons v rest ih =>
    intro r
    by_cases h : u ∩ v = ∅
    · rw [innerJoin_cons_empty u v rest h]
      left
      rfl
    · rw [innerJoin_cons_inter u v rest h]
      cases r with
      | zero =>
        right
        refine ⟨v, rfl, ?_⟩
        simp only [List.get?_cons_zero, Option.some.injEq]
        ext x
        simp only [Finset.mem_sdiff, Finset.mem_inter]
        tauto
      | succ r' =>
        simp only [List.get?_cons_succ]
        exact ih r'

theorem innerJoin_get?_char (u : Finset ℕ) (l : List (Finset ℕ)) (r : ℕ)
    (s : Finset ℕ) (h : (innerJoin u l).2.get? r = some s) :
    ∃ t, l.get? r = some t ∧ s ⊆ t ∧ ∀ x ∈ t, x ∉ u → x ∈ s := by
  rcases innerJoin_get? u l r with he | ⟨t, ht, he⟩
  · rw [he] at h
    exact ⟨s, h, Finset.Subset.refl s, fun x hx _ => hx⟩
  · rw [he] at h
    injection h with h
    subst h
    exact ⟨t, ht, Finset.sdiff_subset, fun x hxt hxu => Finset.mem_sdiff.mpr ⟨hxt, hxu⟩⟩

theorem innerJoin_recs_subset (u : Finset ℕ) :
    ∀ l : List (Finset ℕ), ∀ s ∈ (innerJoin u l).1, s ⊆ u := by
  intro l
  induction l with
  | nil => intro s hs; simp [innerJoin_nil] at hs
  | cons v rest ih =>
    intro s hs
    by_cases h : u ∩ v = ∅
    · rw [innerJoin_cons_empty u v rest h] at hs
      simp at hs
    · rw [innerJoin_cons_inter u v rest h] at hs
      rcases List.mem_cons.mp hs with rfl | hs
      · exact Finset.inter_subset_left
      · exact ih s hs

theorem innerJoin_disjoint (u : Finset ℕ) :
    ∀ l : List (Finset ℕ),
      (∀ r t, l.get? r = some t → u ∩ t = ∅ →
        ∀ r' t', r < r' → l.get? r' = some t' → u ∩ t' = ∅) →
      ∀ r t', (innerJoin u l).2.get? r = some t' → u ∩ t' = ∅ := by
  intro l
  induction l with
  | nil => intro _ r t' h; simp [innerJoin_nil] at h
  | cons v rest ih =>
    intro hpc r t' h
    by_cases hv : u ∩ v = ∅
    · rw [innerJoin_cons_empty u v rest hv] at h
      cases r with
      | zero =>
        rw [List.get?_cons_zero] at h
        injection h with h
        subst h
        exact hv
      | succ r' =>
        rw [List.get?_cons_succ] at h
        exact hpc 0 v rfl hv (r' + 1) t' (by omega) (by rw [List.get?_cons_succ]; exact h)
    · rw [innerJoin_cons_inter u v rest hv] at h
      cases r with
      | zero =>
        rw [List.get?_cons_zero] at h
        injection h with h
        subst h
        ext x
        simp only [Finset.mem_inter, Finset.mem_sdiff, Finset.not_mem_empty, iff_false]
        tauto
      | succ r' =>
        rw [List.get?_cons_succ] at h
        refine ih ?_ r' t' h
        intro a ta ha hdisj b tb hab hb
        exact hpc (a + 1) ta (by rw [List.get?_cons_succ]; exact ha) hdisj (b + 1) tb
          (by omega) (by rw [List.get?_cons_succ]; exact hb)

theorem consec_tail (s : Finset ℕ) (l : List (Finset ℕ)) (hc : Consec (s :: l)) :
    Consec l := by
  intro a b c sa sb sc hab hbc ha hb hcc x hxa hxc
  exact hc (a + 1) (b + 1) (c + 1) sa sb sc (by omega) (by omega)
    (by rw [List.get?_cons_succ]; exact ha) (by rw [List.get?_cons_succ]; exact hb)
    (by rw [List.get?_cons_succ]; exact hcc) x hxa hxc

theorem consec_hpc (u : Finset ℕ) (l : List (Finset ℕ)) (hc : Consec (u :: l)) :
    ∀ r t, l.get? r = some t → u ∩ t = ∅ →
      ∀ r' t', r < r' → l.get? r' = some t' → u ∩ t' = ∅ := by
  intro r t ht hdisj r' t' hrr ht'
  ext x
  simp only [Finset.mem_inter, Finset.not_mem_empty, iff_false, not_and]
  intro hxu hxt'
  have hxt : x ∈ t := hc 0 (r + 1) (r' + 1) u t t' (by omega) (by omega) rfl
    (by rw [List.get?_cons_succ]; exact ht) (by rw [List.get?_cons_succ]; exact ht') x hxu hxt'
  have : x ∈ u ∩ t := Finset.mem_inter.mpr ⟨hxu, hxt⟩
  rw [hdisj] at this
  exact Finset.not_mem_empty x this

theorem innerJoin_consec (u : Finset ℕ) (l : List (Finset ℕ))
    (hc : Consec (u :: l)) : Consec (innerJoin u l).2 := by
  intro a b c sa sb sc hab hbc ha hb hcc x hxa hxc
  obtain ⟨ta, hta, hsa, _⟩ := innerJoin_get?_char u l a sa ha
  obtain ⟨tb, htb, _, hkeep⟩ := innerJoin_get?_char u l b sb hb
  obtain ⟨tc, htc, hsc, _⟩ := innerJoin_get?_char u l c sc hcc
  have hxtb : x ∈ tb :=
    consec_tail u l hc a b c ta tb tc hab hbc hta htb htc x (hsa hxa) (hsc hxc)
  have hxu : x ∉ u := by
    intro hxu
    have hdisj := innerJoin_disjoint u l (consec_hpc u l hc) a sa ha
    have : x ∈ u ∩ sa := Finset.mem_inter.mpr ⟨hxu, hxa⟩
    rw [hdisj] at this
    exact Finset.not_mem_empty x this
  exact hkeep x hxtb hxu

theorem binPassF_cons (fuel : ℕ) (u : Finset ℕ) (rest : List (Finset ℕ)) :
    binPassF (fuel + 1) (u :: rest) =
      (u, (innerJoin u rest).1) :: binPassF fuel (innerJoin u rest).2 := rfl

theorem binPassF_length :
    ∀ (fuel : ℕ) (l : List (Finset ℕ)), l.length ≤ fuel →
      (binPassF fuel l).length = l.length := by
  intro fuel
  induction fuel with
  | zero =>
    intro l hl
    have : l = [] := List.eq_nil_of_length_eq_zero (by omega)
    subst this
    rfl
  | succ fuel ih =>
    intro l hl
    cases l with
    | nil => rfl
    | cons u rest =>
      rw [binPassF_cons]
      simp only [List.length_cons]
      rw [ih (innerJoin u rest).2 (by rw [innerJoin_snd_length]; simp at hl; omega)]
      rw [innerJoin_snd_length]

theorem binPassF_fst_le :
    ∀ (fuel : ℕ) (l : List (Finset ℕ)) (e : Finset ℕ × List (Finset ℕ)),
      e ∈ binPassF fuel l → ∃ r t, l.get? r = some t ∧ e.1 ⊆ t := by
  intro fuel
  induction fuel with
  | zero => intro l e he; simp [binPassF] at he
  | succ fuel ih =>
    intro l e he
    cases l with
    | nil => simp [binPassF] at he
    | cons u rest =>
      rw [binPassF_cons] at he
      rcases List.mem_cons.mp he with rfl | he
      · exact ⟨0, u, rfl, Finset.Subset.refl u⟩
      · obtain ⟨r, t, ht, hsub⟩ := ih (innerJoin u rest).2 e he
        obtain ⟨t0, ht0, hsub0, _⟩ := innerJoin_get?_char u rest r t ht
        exact ⟨r + 1, t0, by rw [List.get?_cons_succ]; exact ht0, hsub.trans hsub0⟩

theorem binPassF_recs :
    ∀ (fuel : ℕ) (l : List (Finset ℕ)) (e : Finset ℕ × List (Finset ℕ)),
      e ∈ binPassF fuel l → ∀ s ∈ e.2, s ⊆ e.1 := by
  intro fuel
  induction fuel with
  | zero => intro l e he; simp [binPassF] at he
  | succ fuel ih =>
    intro l e he
    cases l with
    | nil => simp [binPassF] at he
    | cons u rest =>
      rw [binPassF_cons] at he
      rcases List.mem_cons.mp he with rfl | he
      · exact innerJoin_recs_subset u rest
      · exact ih (innerJoin u rest).2 e he

theorem binPassF_pairwise :
    ∀ (fuel : ℕ) (l : List (Finset ℕ)), l.length ≤ fuel → Consec l →
      List.Pairwise (fun e er => e.1 ∩ er.1 = ∅) (binPassF fuel l) := by
  intro fuel
  induction fuel with
  | zero => intro l _ _; simp [binPassF]
  | succ fuel ih =>
    intro l hl hc
    cases l with
    | nil => simp [binPassF]
    | cons u rest =>
      rw [binPassF_cons]
      rw [List.pairwise_cons]
      constructor
      · intro er her
        obtain ⟨r, t, ht, hsub⟩ := binPassF_fst_le fuel (innerJoin u rest).2 er her
        have hdisj : u ∩ t = ∅ :=
          innerJoin_disjoint u rest (consec_hpc u rest hc) r t ht
        have hss : u ∩ er.1 ⊆ u ∩ t :=
          Finset.inter_subset_inter (Finset.Subset.refl u) hsub
        rw [hdisj] at hss
        exact Finset.subset_empty.mp hss
      · refine ih (innerJoin u rest).2 ?_ (innerJoin_consec u rest hc)
        rw [innerJoin_snd_length]
        simp at hl
        omega

theorem binnedOutputs_cons (p : List ℕ) (ps : List (List ℕ))
    (e : Finset ℕ × List (Finset ℕ)) (rest : List (Finset ℕ × List (Finset ℕ))) :
    binnedOutputs (p :: ps) (e :: rest) =
      if e.1 = ∅ then binnedOutputs ps rest
      else (p.filter (fun x => x ∈ e.1) ++ joinPull ps e.2) :: binnedOutputs ps rest := rfl

theorem joinPull_mem :
    ∀ (ps : List (List ℕ)) (rs : List (Finset ℕ)) (x : ℕ),
      x ∈ joinPull ps rs → ∃ s ∈ rs, x ∈ s := by
  intro ps rs
  induction rs generalizing ps with
  | nil => intro x hx; cases ps <;> simp [joinPull] at hx
  | cons r rs ih =>
    intro x hx
    cases ps with
    | nil => simp [joinPull] at hx
    | cons p ps =>
      rw [joinPull] at hx
      rcases List.mem_append.mp hx with hx | hx
      · have := List.mem_filter.mp hx
        exact ⟨r, List.mem_cons_self r rs, by simpa using this.2⟩
      · obtain ⟨s, hs, hxs⟩ := ih ps x hx
        exact ⟨s, List.mem_cons_of_mem r hs, hxs⟩

theorem binnedOutputs_mem_subset :
    ∀ (pass : List (Finset ℕ × List (Finset ℕ))) (ps : List (List ℕ)),
      (∀ e ∈ pass, ∀ s ∈ e.2, s ⊆ e.1) →
      ∀ o ∈ binnedOutputs ps pass, ∃ e ∈ pass, ∀ x ∈ o, x ∈ e.1 := by
  intro pass
  induction pass with
  | nil => intro ps _ o ho; cases ps <;> simp [binnedOutputs] at ho
  | cons e rest ih =>
    intro ps hrecs o ho
    cases ps with
    | nil => simp [binnedOutputs] at ho
    | cons p ps =>
      rw [binnedOutputs_cons] at ho
      by_cases he : e.1 = ∅
      · rw [if_pos he] at ho
        obtain ⟨er, her, hsub⟩ := ih ps (fun er her => hrecs er (List.mem_cons_of_mem e her)) o ho
        exact ⟨er, List.mem_cons_of_mem e her, hsub⟩
      · rw [if_neg he] at ho
        rcases List.mem_cons.mp ho with rfl | ho
        · refine ⟨e, List.mem_cons_self e rest, ?_⟩
          intro x hx
          rcases List.mem_append.mp hx with hx | hx
          · have := List.mem_filter.mp hx
            simpa using this.2
          · obtain ⟨s, hs, hxs⟩ := joinPull_mem ps e.2 x hx
            exact hrecs e (List.mem_cons_self e rest) s hs hxs
        · obtain ⟨er, her, hsub⟩ := ih ps (fun er her => hrecs er (List.mem_cons_of_mem e her)) o ho
          exact ⟨er, List.mem_cons_of_mem e her, hsub⟩

theorem binnedOutputs_pairwise :
    ∀ (pass : List (Finset ℕ × List (Finset ℕ))) (ps : List (List ℕ)),
      List.Pairwise (fun e er => e.1 ∩ er.1 = ∅) pass →
      (∀ e ∈ pass, ∀ s ∈ e.2, s ⊆ e.1) →
      List.Pairwise (fun o or => ∀ x ∈ o, x ∉ or) (binnedOutputs ps pass) := by
  intro pass
  induction pass with
  | nil => intro ps _ _; cases ps <;> simp [binnedOutputs]
  | cons e rest ih =>
    intro ps hpw hrecs
    rcases List.pairwise_cons.mp hpw with ⟨hhead, htail⟩
    cases ps with
    | nil => simp [binnedOutputs]
    | cons p ps =>
      rw [binnedOutputs_cons]
      by_cases he : e.1 = ∅
      · rw [if_pos he]
        exact ih ps htail (fun er her => hrecs er (List.mem_cons_of_mem e her))
      · rw [if_neg he]
        rw [List.pairwise_cons]
        constructor
        · intro or hor x hx
          obtain ⟨er, her, hsubr⟩ := binnedOutputs_mem_subset rest ps
            (fun er her => hrecs er (List.mem_cons_of_mem e her)) or hor
          have hxe : x ∈ e.1 := by
            rcases List.mem_append.mp hx with hx | hx
            · have := List.mem_filter.mp hx
              simpa using this.2
            · obtain ⟨s, hs, hxs⟩ := joinPull_mem ps e.2 x hx
              exact hrecs e (List.mem_cons_self e rest) s hs hxs
          intro hxor
          have hxer : x ∈ er.1 := hsubr x hxor
          have : x ∈ e.1 ∩ er.1 := Finset.mem_inter.mpr ⟨hxe, hxer⟩
          rw [hhead er her] at this
          exact Finset.not_mem_empty x this
        · exact ih ps htail (fun er her => hrecs er (List.mem_cons_of_mem e her))

theorem binnedOutputs_length :
    ∀ (pass : List (Finset ℕ × List (Finset ℕ))) (ps : List (List ℕ)),
      ps.length = pass.length →
      (binnedOutputs ps pass).length =
        (pass.filter (fun e => decide (e.1 ≠ ∅))).length := by
  intro pass
  induction pass with
  | nil => intro ps _; cases ps <;> simp [binnedOutputs]
  | cons e rest ih =>
    intro ps hlen
    cases ps with
    | nil => simp at hlen
    | cons p ps =>
      rw [binnedOutputs_cons]
      by_cases he : e.1 = ∅
      · rw [if_pos he]
        rw [List.filter_cons]
        simp only [he, decide_not]
        simp only [List.length_cons] at hlen
        rw [ih ps (by omega)]
        simp
      · rw [if_neg he]
        rw [List.filter_cons]
        have hd : decide (e.1 ≠ ∅) = true := by simpa using he
        rw [hd]
        simp only [List.length_cons] at hlen
        simp [ih ps (by omega)]

theorem binnedOutputs_cover :
    ∀ (fuel : ℕ) (l : List (Finset ℕ)) (ps : List (List ℕ)), l.length ≤ fuel →
      (∀ r t, l.get? r = some t → ∃ p, ps.get? r = some p ∧ ∀ x ∈ t, x ∈ p) →
      ∀ (x r : ℕ) (t : Finset ℕ), l.get? r = some t → x ∈ t →
        ∃ o ∈ binnedOutputs ps (binPassF fuel l), x ∈ o := by
  intro fuel
  induction fuel with
  | zero =>
    intro l ps hl _ x r t ht _
    have : l = [] := List.eq_nil_of_length_eq_zero (by omega)
    subst this
    simp at ht
  | succ fuel ih =>
    intro l ps hl hinv x r t ht hx
    cases l with
    | nil => simp at ht
    | cons u rest =>
      obtain ⟨pp, hp, hup⟩ := hinv 0 u rfl
      cases ps with
      | nil => simp at hp
      | cons p0 ps' =>
        rw [List.get?_cons_zero] at hp
        injection hp with hp
        subst hp
        rw [binPassF_cons]
        by_cases hxu : x ∈ u
        · have hune : u ≠ ∅ := Finset.ne_empty_of_mem hxu
          rw [binnedOutputs_cons, if_neg hune]
          refine ⟨p0.filter (fun y => y ∈ u) ++ joinPull ps' (innerJoin u rest).1,
            List.mem_cons_self _ _, ?_⟩
          apply List.mem_append_left
          exact List.mem_filter.mpr ⟨hup x hxu, by simp [hxu]⟩
        · cases r with
          | zero =>
            rw [List.get?_cons_zero] at ht
            injection ht with ht
            subst ht
            exact absurd hx hxu
          | succ r' =>
            rw [List.get?_cons_succ] at ht
            have hsurv : ∃ tr, (innerJoin u rest).2.get? r' = some tr ∧ x ∈ tr := by
              rcases innerJoin_get? u rest r' with he | ⟨t0, ht0, he⟩
              · exact ⟨t, by rw [he]; exact ht, hx⟩
              · rw [ht0] at ht
                injection ht with ht
                subst ht
                exact ⟨t0 \ u, he, Finset.mem_sdiff.mpr ⟨hx, hxu⟩⟩
            obtain ⟨tr, htr, hxtr⟩ := hsurv
            have hinv' : ∀ rr tt, (innerJoin u rest).2.get? rr = some tt →
                ∃ pp, ps'.get? rr = some pp ∧ ∀ y ∈ tt, y ∈ pp := by
              intro rr tt htt
              obtain ⟨t2, ht2, hsub, _⟩ := innerJoin_get?_char u rest rr tt htt
              obtain ⟨pp, hpp, hmem⟩ := hinv (rr + 1) t2 (by rw [List.get?_cons_succ]; exact ht2)
              rw [List.get?_cons_succ] at hpp
              exact ⟨pp, hpp, fun y hy => hmem y (hsub hy)⟩
            have hlen' : (innerJoin u rest).2.length ≤ fuel := by
              rw [innerJoin_snd_length]
              simp at hl
              omega
            obtain ⟨o, ho, hxo⟩ := ih (innerJoin u rest).2 ps' hlen' hinv' x r' tr htr hxtr
            by_cases hue : u = ∅
            · rw [binnedOutputs_cons, if_pos hue]
              exact ⟨o, ho, hxo⟩
            · rw [binnedOutputs_cons, if_neg hue]
              exact ⟨o, List.mem_cons_of_mem _ ho, hxo⟩

theorem sortedParts_consec (parts : List (List ℕ)) (hs : SortedParts parts) :
    Consec (parts.map List.toFinset) := by
  intro a b c sa sb sc hab hbc ha hb hcc x hxa hxc
  rw [List.get?_map] at ha hb hcc
  rcases hpa : parts.get? a with _ | pa
  · rw [hpa] at ha; cases ha
  rcases hpb : parts.get? b with _ | pb
  · rw [hpb] at hb; cases hb
  rcases hpc : parts.get? c with _ | pc
  · rw [hpc] at hcc; cases hcc
  rw [hpa] at ha
  rw [hpb] at hb
  rw [hpc] at hcc
  injection ha with ha
  injection hb with hb
  injection hcc with hcc
  subst ha hb hcc
  rw [List.mem_toFinset] at hxa hxc ⊢
  by_cases heab : a = b
  · subst heab
    rw [hpa] at hpb
    injection hpb with hpb
    subst hpb
    exact hxa
  by_cases hebc : b = c
  · subst hebc
    rw [hpb] at hpc
    injection hpc with hpc
    subst hpc
    exact hxc
  have hltab : a < b := by omega
  have hltbc : b < c := by omega
  obtain ⟨hha, hga⟩ := List.get?_eq_some.mp hpa
  obtain ⟨hhb, hgb⟩ := List.get?_eq_some.mp hpb
  obtain ⟨hhc, hgc⟩ := List.get?_eq_some.mp hpc
  have hpw := List.pairwise_iff_get.mp hs.2
  have hab' := hpw ⟨a, hha⟩ ⟨b, hhb⟩ hltab
  have hbc' := hpw ⟨b, hhb⟩ ⟨c, hhc⟩ hltbc
  rw [hga, hgb] at hab'
  rw [hgb, hgc] at hbc'
  have hpbne : pb ≠ [] := hs.1 pb (List.get?_mem hpb)
  obtain ⟨y, hy⟩ := List.exists_mem_of_ne_nil pb hpbne
  have h1 : x ≤ y := hab' x hxa y hy
  have h2 : y ≤ x := hbc' y hy x hxc
  have : y = x := by omega
  subst this
  exact hy

/-- C6: after `sort_values_binned` completes (the network sort being
modelled from the spec by `SortedParts`), no sort-key value appears in
two different output partitions; every key value of the input —
including every value that straddled a post-sort partition boundary —
appears in some (hence exactly one) output partition; and exactly the
partitions whose key set was emptied by the consolidation are omitted
from the output. -/
theorem sort_values_binned_exclusive (parts : List (List ℕ)) (hs : SortedParts parts) :
    List.Pairwise (fun p q => ∀ x ∈ p, x ∉ q) (sort_values_binned parts) ∧
      (∀ (x : ℕ) (p : List ℕ), p ∈ parts → x ∈ p →
        ∃ o ∈ sort_values_binned parts, x ∈ o) ∧
      (sort_values_binned parts).length =
        ((binPass (parts.map List.toFinset)).filter (fun e => decide (e.1 ≠ ∅))).length := by
  have hconsec := sortedParts_consec parts hs
  have hlen : (parts.map List.toFinset).length = parts.length := List.length_map _ _
  refine ⟨?_, ?_, ?_⟩
  · apply binnedOutputs_pairwise
    · exact binPassF_pairwise (parts.map List.toFinset).length (parts.map List.toFinset)
        le_rfl hconsec
    · exact binPassF_recs (parts.map List.toFinset).length (parts.map List.toFinset)
  · intro x p hp hx
    obtain ⟨r, hr⟩ := List.get?_of_mem hp
    refine binnedOutputs_cover (parts.map List.toFinset).length (parts.map List.toFinset)
      parts le_rfl ?_ x r p.toFinset ?_ ?_
    · intro rr tt htt
      rw [List.get?_map] at htt
      rcases hpp : parts.get? rr with _ | pp
      · rw [hpp] at htt; cases htt
      · rw [hpp] at htt
        injection htt with htt
        subst htt
        exact ⟨pp, rfl, fun y hy => List.mem_toFinset.mp hy⟩
    · rw [List.get?_map, hr]
      rfl
    · exact List.mem_toFinset.mpr hx
  · rw [sort_values_binned, binPass]
    exact binnedOutputs_length (binPassF (parts.map List.toFinset).length
      (parts.map List.toFinset)) parts
      (by rw [binPassF_length (parts.map List.toFinset).length (parts.map List.toFinset) le_rfl]; omega)

/-- C6 witness: sorted partitions `[1,2], [2,3], [3]` — keys 2 and 3
straddle boundaries; the binned outputs are `[1,2,2]` and `[3,3]`, with
pairwise disjoint keys and the emptied third partition omitted. -/
theorem sort_values_binned_exclusive_witness :
    SortedParts [[1, 2], [2, 3], [3]] ∧
      List.Pairwise (fun p q => ∀ x ∈ p, x ∉ q) (sort_values_binned [[1, 2], [2, 3], [3]]) ∧
      (sort_values_binned [[1, 2], [2, 3], [3]]).length =
        ((binPass ([[1, 2], [2, 3], [3]].map List.toFinset)).filter
          (fun e => decide (e.1 ≠ ∅))).length := by
  have hs : SortedParts [[1, 2], [2, 3], [3]] := ⟨by decide, by decide⟩
  have h := sort_values_binned_exclusive [[1, 2], [2, 3], [3]] hs
  exact ⟨hs, h.1, h.2.2⟩

end DaskCudf
